import Mathlib

/-!
Verification of the hybrid retrieval core of a podcast-search repository.

The Python source is shallowly embedded: strings become `List Char`,
Python ints become `ℕ`/`ℤ`, floats become `ℚ` (with the `0.7` literal in
the word-boundary test embedded as the exact rational `7/10`), the
stateful FAISS index becomes explicit state passing, and the SQL storage
layer becomes an in-memory record of rows.  Each definition is a direct
translation of the function of the same name in `app/chunk.py`,
`app/rank.py`, `app/index.py` or `app/embed.py`.
-/

/-! ## Python string primitives -/

/-- Whitespace characters recognised by Python's `str.strip` / `str.split`
(ASCII subset). -/
def pyWhitespace (c : Char) : Bool :=
  c = ' ' || c = '\t' || c = '\n' || c = '\r' || c = '\x0b' || c = '\x0c'

/-- Python `str.strip()`: drop leading and trailing whitespace. -/
def pyStrip (l : List Char) : List Char :=
  ((l.dropWhile pyWhitespace).reverse.dropWhile pyWhitespace).reverse

/-- Python slicing `t[s:e]` for `0 ≤ s ≤ e` (clamped at the ends, empty
when `e ≤ s`, matching Python for the in-range uses in this code). -/
def sliceChars (l : List Char) (s e : ℕ) : List Char :=
  (l.drop s).take (e - s)

/-- Python `str.lower()` (ASCII behaviour). -/
def pyLower (l : List Char) : List Char :=
  l.map Char.toLower

/-- Helper for `pySplit`: accumulates the current word (reversed). -/
def pySplitAux : List Char → List Char → List (List Char)
  | [], acc => if acc.isEmpty then [] else [acc.reverse]
  | c :: cs, acc =>
    if pyWhitespace c then
      if acc.isEmpty then pySplitAux cs [] else acc.reverse :: pySplitAux cs []
    else pySplitAux cs (c :: acc)

/-- Python `str.split()` with no argument: split on whitespace runs,
no empty words. -/
def pySplit (l : List Char) : List (List Char) :=
  pySplitAux l []

/-- Python substring test `needle in hay`. -/
def listContains (needle hay : List Char) : Bool :=
  (List.range (hay.length + 1)).any fun i => needle.isPrefixOf (hay.drop i)

/-- Python `text.rfind(' ', s, e)`: the largest index `i` with
`s ≤ i < e` and `text[i] = ' '`, as an `Option` (Python returns `-1`
when absent). -/
def rfindSpace (l : List Char) (s e : ℕ) : Option ℕ :=
  ((List.range l.length).filter fun i =>
    decide (s ≤ i) && decide (i < e) && decide (l.getD i 'x' = ' ')).getLast?

/-! ## Chunker (`app/chunk.py`) -/

/-- The `Chunk` dataclass fields produced by `to_chunks`
(`id`/`episode_id` are set later by callers and stay at their defaults
there, so they are omitted).  `endPos` embeds the Python field `end`,
which is a keyword in Lean. -/
structure ChunkPy where
  idx : ℕ
  text : List Char
  start : ℕ
  endPos : ℕ
  deriving DecidableEq, Repr

/-- The end position computed by one iteration of the `to_chunks` loop:
`end = min(start + chunk_size, len(text))`, then moved back to the last
space of the window when that keeps the window above 70% of
`chunk_size`.  The float comparison `last_space > start + chunk_size * 0.7`
is embedded exactly as `10 * last_space > 10 * start + 7 * chunk_size`. -/
def chunkEnd (t : List Char) (chunk_size s : ℕ) : ℕ :=
  let e := min (s + chunk_size) t.length
  if e < t.length then
    match rfindSpace t s e with
    | some last_space =>
        if 10 * last_space > 10 * s + 7 * chunk_size then last_space else e
    | none => e
  else e

/-- The advance of the `to_chunks` loop:
`start = max(start + 1, end - overlap)` (truncated subtraction agrees
with Python's `max` against a possibly negative `end - overlap`). -/
def chunkNext (t : List Char) (chunk_size overlap s : ℕ) : ℕ :=
  max (s + 1) (chunkEnd t chunk_size s - overlap)

/-- The `while start < len(text)` loop of `to_chunks`, with explicit
fuel.  Each iteration strictly increases `start` (see
`to_chunks_strict_progress`), so fuel `len(text)` is enough; `to_chunks`
passes exactly that. -/
def chunkLoop (t : List Char) (chunk_size overlap : ℕ) :
    ℕ → ℕ → ℕ → List ChunkPy
  | 0, _, _ => []
  | fuel + 1, s, idx =>
    if s < t.length then
      let e := chunkEnd t chunk_size s
      let chunk_text := pyStrip (sliceChars t s e)
      if chunk_text.isEmpty then
        chunkLoop t chunk_size overlap fuel (chunkNext t chunk_size overlap s) idx
      else
        ⟨idx, chunk_text, s, e⟩ ::
          chunkLoop t chunk_size overlap fuel (chunkNext t chunk_size overlap s) (idx + 1)
    else []

/-- `to_chunks(text, chunk_size, overlap)` from `app/chunk.py`. -/
def to_chunks (text : List Char) (chunk_size overlap : ℕ) : List ChunkPy :=
  let t := pyStrip text
  if t.isEmpty then []
  else if t.length ≤ chunk_size then [⟨0, t, 0, t.length⟩]
  else chunkLoop t chunk_size overlap t.length 0 0

/-- The sequence of windows `(start, end)` scanned by the `to_chunks`
loop, including the ones whose stripped text is empty and which are
therefore discarded from the chunk list. -/
def windowLoop (t : List Char) (chunk_size overlap : ℕ) :
    ℕ → ℕ → List (ℕ × ℕ)
  | 0, _ => []
  | fuel + 1, s =>
    if s < t.length then
      (s, chunkEnd t chunk_size s) ::
        windowLoop t chunk_size overlap fuel (chunkNext t chunk_size overlap s)
    else []

/-- All windows scanned by `to_chunks text chunk_size overlap` (on the
stripped text, from position 0). -/
def to_windows (text : List Char) (chunk_size overlap : ℕ) : List (ℕ × ℕ) :=
  windowLoop (pyStrip text) chunk_size overlap (pyStrip text).length 0

/-! ## Snippet extraction (`_generate_snippet` in `app/rank.py`) -/

/-- The ellipsis marker `"..."`. -/
def dots : List Char := ['.', '.', '.']

/-- The stride-50 scan positions `range(0, len(text) - snippet_length, 50)`
of `_generate_snippet` (the guard `len(text) > snippet_length` makes the
stop positive). -/
def snippetPositions (n snippet_length : ℕ) : List ℕ :=
  List.range' 0 ((n - snippet_length + 49) / 50) 50

/-- The window score of `_generate_snippet`: how many of the query's
words occur in the window (`sum(1 for word in query_lower.split() if
word in snippet)`). -/
def snippetScore (query_words : List (List Char)) (window : List Char) : ℕ :=
  query_words.countP fun w => listContains w window

/-- The winning window start of `_generate_snippet`'s scan: the first
position of maximal score (updates only on a strictly larger score),
starting from `best_pos = 0, max_score = 0`. -/
def bestPos (t q : List Char) (snippet_length : ℕ) : ℕ :=
  let text_lower := pyLower t
  let query_words := pySplit (pyLower q)
  ((snippetPositions t.length snippet_length).foldl
    (fun acc i =>
      let score := snippetScore query_words (sliceChars text_lower i (i + snippet_length))
      if score > acc.2 then (i, score) else acc)
    ((0, 0) : ℕ × ℕ)).1

/-- `_generate_snippet(text, query, snippet_length)` from `app/rank.py`. -/
def generate_snippet (t q : List Char) (snippet_length : ℕ) : List Char :=
  if t.length ≤ snippet_length then t
  else
    let best_pos := bestPos t q snippet_length
    let s := best_pos - 20
    let e := min t.length (s + snippet_length + 20)
    (if 0 < s then dots else []) ++ sliceChars t s e ++
      (if e < t.length then dots else [])

/-- Modelled from the spec: snippet extraction as §4.6 words it — expand
the winning window `[best_pos, best_pos + snippet_length)` by 20
characters **on each side** (each clip independent), then add the
ellipsis markers wherever the expanded window misses an end of the
text.  Used only to compare against `generate_snippet`. -/
def specSnippet (t q : List Char) (snippet_length : ℕ) : List Char :=
  if t.length ≤ snippet_length then t
  else
    let best_pos := bestPos t q snippet_length
    let s := best_pos - 20
    let e := min t.length (best_pos + snippet_length + 20)
    (if 0 < s then dots else []) ++ sliceChars t s e ++
      (if e < t.length then dots else [])

/-! ## Storage rows (the collaborator behind `app/database.py`) -/

/-- A row of the `chunks` table (`ChunkModel`). -/
structure ChunkRow where
  id : ℕ
  episode_id : ℕ
  idx : ℕ
  text : List Char
  start : ℕ
  endPos : ℕ
  deriving DecidableEq, Repr

/-- A row of the `episodes` table (`EpisodeModel`). -/
structure EpisodeRow where
  id : ℕ
  guid : List Char
  title : List Char
  link : List Char
  pub_date : Option (List Char)
  description : List Char
  transcript : List Char
  deriving DecidableEq, Repr

/-- The visible state of the storage collaborator. -/
structure DB where
  chunks : List ChunkRow
  episodes : List EpisodeRow
  deriving DecidableEq, Repr

/-- `db.get_episode(episode_id)`: `filter(id == episode_id).first()`. -/
def get_episode (db : DB) (episode_id : ℕ) : Option EpisodeRow :=
  db.episodes.find? fun e => e.id == episode_id

/-- Chunk rows in ascending `id` order (`order_by(ChunkModel.id)`;
`id` is the primary key, so any sort by `id` yields this list). -/
def chunksById (db : DB) : List ChunkRow :=
  db.chunks.insertionSort fun a b => a.id ≤ b.id

/-- `_get_chunk_metadata(chunk_idx)` from `app/rank.py`: the row at
offset `chunk_idx` of the chunks **ordered by id**
(`session.query(ChunkModel).order_by(ChunkModel.id).offset(chunk_idx).first()`),
mapped to `(episode_id, start, end)`. -/
def _get_chunk_metadata (db : DB) (chunk_idx : ℕ) : Option (ℕ × ℕ × ℕ) :=
  ((chunksById db).drop chunk_idx).head?.map fun c => (c.episode_id, c.start, c.endPos)

/-! ## Vector index (`app/index.py`, `app/embed.py`) -/

/-- An embedding-matrix entry: a finite float value, or one of the
non-finite values `validate_embeddings` rejects. -/
inductive EVal where
  | fin (q : ℚ)
  | nan
  | inf
  | neginf
  deriving DecidableEq, Repr

/-- `np.isnan(v) or np.isinf(v)` for a single value. -/
def EVal.isBad : EVal → Bool
  | .fin _ => false
  | _ => true

/-- `np.any(np.isnan(e)) or np.any(np.isinf(e))` over the matrix. -/
def hasBadValue (embeddings : List (List EVal)) : Bool :=
  embeddings.any fun row => row.any EVal.isBad

/-- The value of a finite entry (the success path of `build` only ever
reads finite entries). -/
def EVal.toRat : EVal → ℚ
  | .fin q => q
  | _ => 0

/-- `validate_embeddings(embeddings, chunk_ids)` from `app/embed.py`
(the `is None` checks are vacuous here since the embedding is typed). -/
def validate_embeddings (embeddings : List (List EVal)) (chunk_ids : List ℕ) : Bool :=
  if embeddings.length != chunk_ids.length then false
  else if embeddings.length == 0 then false
  else if hasBadValue embeddings then false
  else true

/-- The persisted/in-memory FAISS `IndexFlatL2`: its dimension and the
raw vectors it linearly scans. -/
structure FaissIndex where
  dim : ℕ
  vectors : List (List ℚ)
  deriving DecidableEq, Repr

/-- The process state of `app/index.py`: the index file on disk
(`FAISS_PATH`), the module-global `_index`, and the module-global
`_chunk_map` (a `chunk-index → (episode_id, start, end)` table,
embedded as an association list with distinct keys). -/
structure SysState where
  disk : Option FaissIndex
  index : Option FaissIndex
  chunk_map : List (ℕ × ℕ × ℕ × ℕ)
  deriving DecidableEq, Repr

/-- `_chunk_map.get(chunk_idx)` (also `get_chunk_metadata` in
`app/index.py`). -/
def chunkMapLookup (m : List (ℕ × ℕ × ℕ × ℕ)) (chunk_idx : ℕ) : Option (ℕ × ℕ × ℕ) :=
  (m.find? fun e => e.1 == chunk_idx).map fun e => e.2

/-- `_build_chunk_map(chunk_ids)` from `app/index.py`: for each
position `idx` of the build-time id list, resolve `chunk_ids[idx]`
against storage (`filter(ChunkModel.id == chunk_id).first()`); ids that
fail to resolve are skipped. -/
def _build_chunk_map (db : DB) (chunk_ids : List ℕ) : List (ℕ × ℕ × ℕ × ℕ) :=
  chunk_ids.enum.filterMap fun p =>
    (db.chunks.find? fun c => c.id == p.2).map fun c =>
      (p.1, c.episode_id, c.start, c.endPos)

/-- `build_faiss_index(embeddings, chunk_ids)` from `app/index.py`,
with the `FAISS_AVAILABLE` import flag explicit.  The call either
raises `ValueError` (`Except.error`, state untouched) or succeeds,
writing the index file and replacing `_index` and `_chunk_map`. -/
def build_faiss_index (faiss_available : Bool) (embeddings : List (List EVal))
    (chunk_ids : List ℕ) (db : DB) (st : SysState) :
    Except Unit Unit × SysState :=
  if !faiss_available then (.ok (), st)
  else if !validate_embeddings embeddings chunk_ids then (.error (), st)
  else
    let dimension := (embeddings.head?.getD []).length
    let index : FaissIndex := ⟨dimension, embeddings.map fun row => row.map EVal.toRat⟩
    (.ok (), ⟨some index, some index, _build_chunk_map db chunk_ids⟩)

/-- Squared L2 distance, the quantity `IndexFlatL2.search` reports
(FAISS returns squared distances, no square root). -/
def sqDist (q v : List ℚ) : ℚ :=
  ((q.zip v).map fun p => (p.1 - p.2) ^ 2).sum

/-- Scan order of the flat index: increasing distance, ties by
position. -/
def distLT (a b : ℕ × ℚ) : Prop :=
  a.2 < b.2 ∨ (a.2 = b.2 ∧ a.1 ≤ b.1)

instance : DecidableRel distLT := fun a b => by
  unfold distLT; infer_instance

/-- `index.search(q, k)` for `IndexFlatL2` with `n` stored vectors:
the `min k n` nearest `(position, squared distance)` pairs (the `-1`
sentinel rows FAISS pads with when `n < k` are the ones
`semantic_search` filters out, so they are simply absent here). -/
def faissSearch (vectors : List (List ℚ)) (q : List ℚ) (k : ℕ) : List (ℕ × ℚ) :=
  (((vectors.enum.map fun p => (p.1, sqDist q p.2)).insertionSort distLT).take k)

/-- `semantic_search(query_embedding, top_k)` from `app/index.py`:
empty when FAISS is unavailable or `_index is None`; otherwise each hit
is converted to `(chunk_idx, max(0, 1.0 - distance))`. -/
def semantic_search (faiss_available : Bool) (st : SysState)
    (query_embedding : List ℚ) (top_k : ℕ) : List (ℕ × ℚ) :=
  if !faiss_available then []
  else
    match st.index with
    | none => []
    | some index =>
        (faissSearch index.vectors query_embedding top_k).map fun p =>
          (p.1, max 0 (1 - p.2))

/-- `is_index_loaded()` from `app/index.py`:
`_index is not None and len(_chunk_map) > 0`. -/
def is_index_loaded (st : SysState) : Bool :=
  st.index.isSome && decide (0 < st.chunk_map.length)

/-! ## Hybrid ranking (`app/rank.py`) -/

/-- The `SearchResult` dataclass. -/
structure SearchResultPy where
  episode_id : ℕ
  title : List Char
  pub_date : Option (List Char)
  link : List Char
  score : ℚ
  snippet : List Char
  semantic_score : ℚ
  lexical_score : ℚ
  deriving DecidableEq, Repr

/-- `lexical_score(query, text)` from `app/rank.py`.  The RapidFuzz
library call `fuzz.partial_ratio` is an external collaborator and is
passed in as the function `partial_ratio` (its 0–100 output is divided
by 100 as in the source). -/
def lexical_score (partial_ratio : List Char → List Char → ℚ)
    (query text : List Char) : ℚ :=
  if query.isEmpty || text.isEmpty then 0
  else partial_ratio (pyLower query) (pyLower text) / 100

/-- `hybrid_score(semantic_score, lexical_score, alpha)` from
`app/rank.py`. -/
def hybrid_score (semantic lexical alpha : ℚ) : ℚ :=
  alpha * semantic + (1 - alpha) * lexical

/-- `episode.transcript or episode.description or ""`: the text an
episode contributes to `_get_chunk_text`. -/
def episodeFullText (episode : EpisodeRow) : List Char :=
  if episode.transcript.isEmpty then episode.description else episode.transcript

/-- `_get_chunk_text(episode_id, start, end)` from `app/rank.py`:
the slice `[start:end]` of the episode's transcript (falling back to
its description), except that offsets outside the text
(`start >= len(full_text) or end > len(full_text)`) return the whole
text. -/
def _get_chunk_text (db : DB) (episode_id s e : ℕ) : List Char :=
  match get_episode db episode_id with
  | none => []
  | some episode =>
    let full_text := episodeFullText episode
    if full_text.length ≤ s || full_text.length < e then full_text
    else sliceChars full_text s e

/-- Python's stable `list.sort(key=lambda x: x.score, reverse=True)`
keeps `a` before `b` exactly when `b.score ≤ a.score`. -/
def scoreGE (a b : SearchResultPy) : Prop :=
  b.score ≤ a.score

instance : DecidableRel scoreGE := fun a b => by
  unfold scoreGE; infer_instance

instance : IsTotal SearchResultPy scoreGE :=
  ⟨fun a b => (le_total b.score a.score).imp id id⟩

instance : IsTrans SearchResultPy scoreGE :=
  ⟨fun _ _ _ h1 h2 => le_trans h2 h1⟩

/-- The two accumulation loops of `rank_results`: resolve each hit's
metadata (unresolved hits dropped), then fetch the chunk text, score,
resolve the episode and build the `SearchResult` (empty text or missing
episode drops the candidate). -/
def rankedCandidates (partial_ratio : List Char → List Char → ℚ) (alpha : ℚ)
    (db : DB) (query : List Char) (semantic_results : List (ℕ × ℚ)) :
    List SearchResultPy :=
  let chunk_metadata := semantic_results.filterMap fun h =>
    (_get_chunk_metadata db h.1).map fun m => (h.1, h.2, m)
  chunk_metadata.filterMap fun t =>
    match t with
    | (_, semantic_score, (episode_id, s, e)) =>
      let chunk_text := _get_chunk_text db episode_id s e
      if chunk_text.isEmpty then none
      else
        let lexical := lexical_score partial_ratio query chunk_text
        let final_score := hybrid_score semantic_score lexical alpha
        match get_episode db episode_id with
        | none => none
        | some episode =>
          some ⟨episode_id, episode.title, episode.pub_date, episode.link,
                final_score, generate_snippet chunk_text query 200,
                semantic_score, lexical⟩

/-- `rank_results(query, semantic_results, top_k)` from `app/rank.py`:
build the candidates, sort by score descending (Python's stable sort),
truncate to `top_k`. -/
def rank_results (partial_ratio : List Char → List Char → ℚ) (alpha : ℚ)
    (db : DB) (query : List Char) (semantic_results : List (ℕ × ℚ))
    (top_k : ℕ) : List SearchResultPy :=
  if semantic_results.isEmpty then []
  else
    ((rankedCandidates partial_ratio alpha db query semantic_results).insertionSort
      scoreGE).take top_k

example : to_chunks "hi there".toList 20 2 = [⟨0, "hi there".toList, 0, 8⟩] := by decide

/-! ## Concrete inputs used by counterexamples and witnesses -/

/-- A store holding two chunks whose primary-key order (3 before 5)
differs from the build-time id-list order `[5, 3]`. -/
def exDb : DB :=
  { chunks :=
      [⟨3, 1, 0, "x".toList, 0, 1⟩,
       ⟨5, 2, 0, "y".toList, 2, 3⟩],
    episodes :=
      [⟨1, "g1".toList, "ep one".toList, "l1".toList, none, "dx".toList, "x".toList⟩,
       ⟨2, "g2".toList, "ep two".toList, "l2".toList, none, "dy".toList, "y".toList⟩] }

/-- A state whose index exists (one stored vector) while the chunk map
is empty, so `is_index_loaded` is false. -/
def exStateNoMap : SysState := ⟨none, some ⟨1, [[0]]⟩, []⟩

/-! ## Claim theorems -/

/-- C1.  The build-time chunk map (`_build_chunk_map` over the ordered
id list `[5, 3]`) resolves vector position 0 to chunk id 5's provenance
`(2, 2, 3)`, but the resolution ranking actually performs
(`_get_chunk_metadata`, an offset into the chunks ordered by id)
returns chunk id 3's provenance `(1, 0, 1)` for the same position: the
claim's invariant — ranked candidates are resolved via the build-time
id list, never via an offset into chunks sorted by id — is exactly what
`app/rank.py` violates, while the faithful map built by `app/index.py`
goes unused by ranking. -/
theorem rank_provenance_uses_id_order_not_build_list :
    chunkMapLookup (_build_chunk_map exDb [5, 3]) 0 = some (2, 2, 3) ∧
    _get_chunk_metadata exDb 0 = some (1, 0, 1) ∧
    _get_chunk_metadata exDb 0 ≠ chunkMapLookup (_build_chunk_map exDb [5, 3]) 0 := by
  decide

/-- C2 (counterexample).  A state with an index of one vector and an
empty chunk map is not ready (`is_index_loaded` is false), yet
`semantic_search` still returns a non-empty candidate list: search is
not gated by chunk-map non-emptiness. -/
theorem semantic_search_ignores_empty_chunk_map :
    is_index_loaded exStateNoMap = false ∧
    semantic_search true exStateNoMap [0] 1 ≠ [] := by
  decide

/-- C2 (amended).  `semantic_search` returns the empty sequence
whenever FAISS is unavailable or the index object does not exist
(`_index is None`); an empty chunk map by itself does not stop the
search. -/
theorem semantic_search_empty_of_no_index (faiss_available : Bool)
    (st : SysState) (q : List ℚ) (k : ℕ)
    (h : faiss_available = false ∨ st.index = none) :
    semantic_search faiss_available st q k = [] := by
  rcases h with h | h
  · subst h
    simp [semantic_search]
  · cases faiss_available <;> simp [semantic_search, h]

/-- Witness for `semantic_search_empty_of_no_index` at a concrete
state with no index object. -/
theorem semantic_search_empty_of_no_index_witness :
    semantic_search true ⟨none, none, []⟩ [0] 3 = [] :=
  semantic_search_empty_of_no_index true ⟨none, none, []⟩ [0] 3 (Or.inr rfl)

/-- C4.  With FAISS importable, `build_faiss_index` raises `ValueError`
whenever the row count differs from the id count, the input is empty,
or some value is NaN/Inf — and the state (index file on disk, in-memory
index and chunk map) is exactly the prior state: no partial write. -/
theorem build_faiss_index_rejects_invalid (embeddings : List (List EVal))
    (chunk_ids : List ℕ) (db : DB) (st : SysState)
    (h : embeddings.length ≠ chunk_ids.length ∨ embeddings = [] ∨
      hasBadValue embeddings = true) :
    build_faiss_index true embeddings chunk_ids db st = (Except.error (), st) := by
  have hv : validate_embeddings embeddings chunk_ids = false := by
    unfold validate_embeddings
    rcases h with h | h | h
    · simp [h]
    · subst h
      cases chunk_ids <;> simp
    · simp [h]
  unfold build_faiss_index
  simp [hv]

/-- Witness for `build_faiss_index_rejects_invalid`: a single NaN entry
is rejected and the state survives unchanged. -/
theorem build_faiss_index_rejects_invalid_witness :
    hasBadValue [[EVal.nan]] = true ∧
    build_faiss_index true [[EVal.nan]] [7] exDb ⟨none, none, []⟩ =
      (Except.error (), ⟨none, none, []⟩) :=
  ⟨by decide,
   build_faiss_index_rejects_invalid [[EVal.nan]] [7] exDb ⟨none, none, []⟩
     (Or.inr (Or.inr (by decide)))⟩

/-- `str.strip` never lengthens a string. -/
theorem pyStrip_length_le (t : List Char) : (pyStrip t).length ≤ t.length := by
  unfold pyStrip
  rw [List.length_reverse]
  calc ((t.dropWhile pyWhitespace).reverse.dropWhile pyWhitespace).length
      ≤ (t.dropWhile pyWhitespace).reverse.length :=
        (List.dropWhile_suffix _).length_le
    _ = (t.dropWhile pyWhitespace).length := List.length_reverse _
    _ ≤ t.length := (List.dropWhile_suffix _).length_le

/-- C7.  Empty or whitespace-only input yields no chunks; any other
text of length at most `chunk_size` yields exactly one chunk, whose
text is the trimmed input, with `start = 0` (and `end` the trimmed
length). -/
theorem to_chunks_short_text (text : List Char) (chunk_size overlap : ℕ) :
    (pyStrip text = [] → to_chunks text chunk_size overlap = []) ∧
    (text.length ≤ chunk_size →
      to_chunks text chunk_size overlap =
        if pyStrip text = [] then []
        else [⟨0, pyStrip text, 0, (pyStrip text).length⟩]) := by
  constructor
  · intro h
    simp [to_chunks, h]
  · intro h
    by_cases hs : pyStrip text = []
    · simp [to_chunks, hs]
    · have hlen : (pyStrip text).length ≤ chunk_size :=
        le_trans (pyStrip_length_le text) h
      simp [to_chunks, hs, hlen, List.isEmpty_iff]

/-- Witness for `to_chunks_short_text` on a 6-character input. -/
theorem to_chunks_short_text_witness :
    ("  hi  ".toList.length ≤ 10) ∧
    to_chunks "  hi  ".toList 10 2 =
      (if pyStrip "  hi  ".toList = [] then []
       else [⟨0, pyStrip "  hi  ".toList, 0, (pyStrip "  hi  ".toList).length⟩]) :=
  ⟨by decide, (to_chunks_short_text "  hi  ".toList 10 2).2 (by decide)⟩

/-- A 60-character text whose only occurrence of the query word `zz`
is at positions 51–52, so the stride-50 scan picks `best_pos = 50`. -/
def exSnippetText : List Char :=
  List.replicate 51 'a' ++ "zz".toList ++ List.replicate 7 'a'

/-- C3 (counterexample).  On `exSnippetText` with requested length 5,
`_generate_snippet` returns `"..." ++ text[30:55] ++ "..."` — its
window end is `min(len, clipped_start + length + 20)`, so the right
side gets no independent 20-character expansion — while the claimed
rule (expand by 20 on each side of the winning window, then mark the
sides not reaching the text bounds) would return `"..." ++ text[30:60]`
with no trailing ellipsis. -/
theorem generate_snippet_not_spec_expansion :
    5 < exSnippetText.length ∧
    generate_snippet exSnippetText "zz".toList 5 ≠
      specSnippet exSnippetText "zz".toList 5 := by
  decide

/-- C3 (amended).  For text longer than the requested length, the
snippet is the slice starting 20 characters before the winning position
(clipped at 0) whose width is capped at `length + 20` (clipped at the
text end) — the right edge is `start + length + 20` for the *clipped*
start, not an independent 20-character expansion of the window's right
side — with a leading ellipsis exactly when the winning position
exceeds 20 and a trailing one exactly when the capped end misses the
text end; the result never exceeds `length + 26` characters. -/
theorem generate_snippet_window (t q : List Char) (L : ℕ) (h : L < t.length) :
    generate_snippet t q L =
      (if 20 < bestPos t q L then dots else []) ++
        sliceChars t (bestPos t q L - 20)
          (min t.length (bestPos t q L - 20 + (L + 20))) ++
        (if bestPos t q L - 20 + (L + 20) < t.length then dots else []) ∧
    (generate_snippet t q L).length ≤ L + 26 := by
  have hg : ¬ (t.length ≤ L) := not_le.mpr h
  have h1 : (0 < bestPos t q L - 20) ↔ (20 < bestPos t q L) := by omega
  have h2 : (min t.length (bestPos t q L - 20 + (L + 20)) < t.length) ↔
      (bestPos t q L - 20 + (L + 20) < t.length) := by omega
  have h3 : bestPos t q L - 20 + L + 20 = bestPos t q L - 20 + (L + 20) := by
    omega
  have heq : generate_snippet t q L =
      (if 20 < bestPos t q L then dots else []) ++
        sliceChars t (bestPos t q L - 20)
          (min t.length (bestPos t q L - 20 + (L + 20))) ++
        (if bestPos t q L - 20 + (L + 20) < t.length then dots else []) := by
    simp only [generate_snippet, if_neg hg]
    rw [h3]
    simp only [h1, h2]
  refine ⟨heq, ?_⟩
  rw [heq]
  have hd : dots.length = 3 := rfl
  have hs : (sliceChars t (bestPos t q L - 20)
      (min t.length (bestPos t q L - 20 + (L + 20)))).length ≤ L + 20 := by
    unfold sliceChars
    rw [List.length_take, List.length_drop]
    omega
  split_ifs <;>
    simp only [List.length_append, hd, List.length_nil] <;> omega

/-- Witness for `generate_snippet_window` at `exSnippetText`. -/
theorem generate_snippet_window_witness :
    5 < exSnippetText.length ∧
    (generate_snippet exSnippetText "zz".toList 5).length ≤ 5 + 26 :=
  ⟨by decide, (generate_snippet_window exSnippetText "zz".toList 5 (by decide)).2⟩

/-- The chunking loop's result does not depend on the fuel once the
fuel covers the remaining text: each iteration strictly advances
`start`, so `len(text) - start` iterations always suffice. -/
theorem chunkLoop_fuel_congr (t : List Char) (chunk_size overlap : ℕ) :
    ∀ f₁ f₂ s i, t.length - s ≤ f₁ → t.length - s ≤ f₂ →
      chunkLoop t chunk_size overlap f₁ s i =
        chunkLoop t chunk_size overlap f₂ s i := by
  intro f₁
  induction f₁ with
  | zero =>
    intro f₂ s i h1 h2
    have hs : ¬ s < t.length := by omega
    cases f₂ with
    | zero => rfl
    | succ f₂ => simp [chunkLoop, hs]
  | succ f₁ ih =>
    intro f₂ s i h1 h2
    cases f₂ with
    | zero =>
      have hs : ¬ s < t.length := by omega
      simp [chunkLoop, hs]
    | succ f₂ =>
      by_cases hs : s < t.length
      · have hnext : s + 1 ≤ chunkNext t chunk_size overlap s := le_max_left _ _
        have r1 : t.length - chunkNext t chunk_size overlap s ≤ f₁ := by omega
        have r2 : t.length - chunkNext t chunk_size overlap s ≤ f₂ := by omega
        simp only [chunkLoop, if_pos hs]
        by_cases he : (pyStrip (sliceChars t s (chunkEnd t chunk_size s))).isEmpty
        · simp [he, ih _ _ _ r1 r2]
        · simp [he, ih _ _ _ r1 r2]
      · simp [chunkLoop, hs]

/-- C6.  For every text, chunk size and overlap — including
`overlap ≥ chunk_size` — the advance
`next_start = max(start + 1, end − overlap)` is strictly greater than
`start`, and consequently the chunking loop is insensitive to any fuel
of at least `len(text) − start`: the `to_chunks` iteration terminates
within `len(text)` steps (which is exactly the fuel `to_chunks`
supplies). -/
theorem to_chunks_strict_progress (t : List Char) (chunk_size overlap : ℕ) :
    (∀ s, s < chunkNext t chunk_size overlap s) ∧
    (∀ fuel s i, t.length - s ≤ fuel →
      chunkLoop t chunk_size overlap fuel s i =
        chunkLoop t chunk_size overlap (t.length - s) s i) := by
  refine ⟨fun s => lt_of_lt_of_le (Nat.lt_succ_self s) (le_max_left _ _), ?_⟩
  intro fuel s i h
  exact chunkLoop_fuel_congr t chunk_size overlap fuel (t.length - s) s i h le_rfl

/-- Witness for `to_chunks_strict_progress`: oversized fuel computes
the same chunks as the remaining-length fuel on a concrete text. -/
theorem to_chunks_strict_progress_witness :
    0 < chunkNext "ab cd".toList 3 5 0 ∧
    chunkLoop "ab cd".toList 3 5 99 0 0 =
      chunkLoop "ab cd".toList 3 5 ("ab cd".toList.length - 0) 0 0 :=
  ⟨(to_chunks_strict_progress "ab cd".toList 3 5).1 0,
   (to_chunks_strict_progress "ab cd".toList 3 5).2 99 0 0 (by decide)⟩

/-- A 14-character text with a 10-space run: the windows covering the
run strip to empty and are discarded. -/
def exGapText : List Char :=
  "ab".toList ++ List.replicate 10 ' ' ++ "cd".toList

/-- C5 (counterexample).  On `exGapText` with `chunk_size = 5` and
`overlap = 1` (so `len(T) > chunk_size` and `overlap < chunk_size`),
`to_chunks` returns chunks `(0,4), (9,14), (13,14)`: the second chunk
starts at 9 ≥ 4 = end of the first (consecutive-overlap violated) and
position 5 of the text is covered by no chunk (coverage violated),
because the all-whitespace windows in between were discarded. -/
theorem to_chunks_gap_counterexample :
    1 < 5 ∧ 5 < (pyStrip exGapText).length ∧
    to_chunks exGapText 5 1 =
      [⟨0, "ab".toList, 0, 4⟩, ⟨1, "cd".toList, 9, 14⟩, ⟨2, "d".toList, 13, 14⟩] ∧
    ¬ List.Chain' (fun a b => b.start < a.endPos) (to_chunks exGapText 5 1) ∧
    ∀ c ∈ to_chunks exGapText 5 1, ¬ (c.start ≤ 5 ∧ 5 < c.endPos) := by
  have hlist : to_chunks exGapText 5 1 =
      [⟨0, "ab".toList, 0, 4⟩, ⟨1, "cd".toList, 9, 14⟩, ⟨2, "d".toList, 13, 14⟩] := by
    decide
  refine ⟨by norm_num, by decide, hlist, ?_, by decide⟩
  rw [hlist]
  intro hch
  rw [List.chain'_cons] at hch
  exact absurd hch.1 (by decide)

/-- A found `rfind(' ', s, e)` index lies in `[s, e)` and inside the
text. -/
theorem rfindSpace_bounds (t : List Char) (s e x : ℕ)
    (h : rfindSpace t s e = some x) : s ≤ x ∧ x < e ∧ x < t.length := by
  unfold rfindSpace at h
  obtain ⟨hne, hxeq⟩ := List.mem_getLast?_eq_getLast (Option.mem_def.mpr h)
  have hx : x ∈ (List.range t.length).filter fun i =>
      decide (s ≤ i) && decide (i < e) && decide (t.getD i 'x' = ' ') :=
    hxeq ▸ List.getLast_mem hne
  rw [List.mem_filter] at hx
  obtain ⟨hma, hcond⟩ := hx
  simp only [Bool.and_eq_true, decide_eq_true_eq] at hcond
  exact ⟨hcond.1.1, hcond.1.2, List.mem_range.mp hma⟩

/-- Case analysis for `chunkEnd`: either the plain window end
`min(start + chunk_size, len)`, or a found space index strictly above
the 70% threshold (only taken when the plain end is interior). -/
theorem chunkEnd_spec (t : List Char) (chunk_size s : ℕ) :
    chunkEnd t chunk_size s = min (s + chunk_size) t.length ∨
    (∃ ls, rfindSpace t s (min (s + chunk_size) t.length) = some ls ∧
      10 * ls > 10 * s + 7 * chunk_size ∧ chunkEnd t chunk_size s = ls ∧
      min (s + chunk_size) t.length < t.length) := by
  simp only [chunkEnd]
  by_cases hlt : min (s + chunk_size) t.length < t.length
  · cases hfind : rfindSpace t s (min (s + chunk_size) t.length) with
    | none => left; simp [hlt, hfind]
    | some ls =>
      by_cases hcond : 10 * ls > 10 * s + 7 * chunk_size
      · right
        exact ⟨ls, rfl, hcond, by simp [hlt, hcond], hlt⟩
      · left; simp [hlt, hfind, hcond]
  · left; simp [hlt]

/-- With a positive chunk size, every window properly extends past its
start and stays inside the text. -/
theorem chunkEnd_bounds (t : List Char) (chunk_size s : ℕ)
    (hcs : 1 ≤ chunk_size) (hs : s < t.length) :
    s < chunkEnd t chunk_size s ∧ chunkEnd t chunk_size s ≤ t.length := by
  rcases chunkEnd_spec t chunk_size s with h | ⟨ls, hfind, hcond, h, _⟩
  · rw [h]; omega
  · have := rfindSpace_bounds t s (min (s + chunk_size) t.length) ls hfind
    rw [h]; omega

/-- An interior window end is at least two past the start (the 70%
threshold prevents one-character windows when `chunk_size ≥ 2`). -/
theorem chunkEnd_interior (t : List Char) (chunk_size s : ℕ)
    (hcs : 2 ≤ chunk_size) (_hs : s < t.length)
    (hlt : chunkEnd t chunk_size s < t.length) :
    s + 2 ≤ chunkEnd t chunk_size s := by
  rcases chunkEnd_spec t chunk_size s with h | ⟨ls, _, hcond, h, _⟩
  · rw [h] at hlt ⊢; omega
  · rw [h]; omega

/-- The advance never skips past the current window's end. -/
theorem chunkNext_le_end (t : List Char) (chunk_size overlap s : ℕ)
    (hcs : 1 ≤ chunk_size) (hs : s < t.length) :
    chunkNext t chunk_size overlap s ≤ chunkEnd t chunk_size s := by
  have := chunkEnd_bounds t chunk_size s hcs hs
  unfold chunkNext
  omega

/-- With a positive overlap, a non-final advance lands strictly inside
the current window, so consecutive kept windows overlap. -/
theorem chunkNext_lt_end (t : List Char) (chunk_size overlap s : ℕ)
    (hov : 1 ≤ overlap) (hcs : 2 ≤ chunk_size) (hs : s < t.length)
    (hnl : chunkNext t chunk_size overlap s < t.length) :
    chunkNext t chunk_size overlap s < chunkEnd t chunk_size s := by
  have hb := chunkEnd_bounds t chunk_size s (by omega) hs
  by_cases hlt : chunkEnd t chunk_size s < t.length
  · have := chunkEnd_interior t chunk_size s hcs hs hlt
    unfold chunkNext
    omega
  · unfold chunkNext at hnl ⊢
    omega

/-- When the advance leaves the text, the current window already
reached the text's end (positive overlap). -/
theorem chunkEnd_eq_len_of_stop (t : List Char) (chunk_size overlap s : ℕ)
    (hcs : 1 ≤ chunk_size) (hov : 1 ≤ overlap) (hs : s < t.length)
    (hstop : ¬ chunkNext t chunk_size overlap s < t.length) :
    chunkEnd t chunk_size s = t.length := by
  have hb := chunkEnd_bounds t chunk_size s hcs hs
  unfold chunkNext at hstop
  have hs1 : t.length ≤ s + 1 := by omega
  rcases chunkEnd_spec t chunk_size s with h | ⟨ls, _, _, _, hlt⟩
  · rw [h]; omega
  · omega

/-- The chunking loop halts immediately once `start` leaves the
text. -/
theorem chunkLoop_stop (t : List Char) (chunk_size overlap f s i : ℕ)
    (h : ¬ s < t.length) : chunkLoop t chunk_size overlap f s i = [] := by
  cases f <;> simp [chunkLoop, h]

/-- Invariant of the chunking loop when `1 ≤ overlap < chunk_size` and
no scanned window strips to empty: the emitted chunks start at the
current position, consecutively overlap, and cover every remaining text
position. -/
theorem chunkLoop_cover (t : List Char) (chunk_size overlap : ℕ)
    (hov : 1 ≤ overlap) (hcs : overlap < chunk_size) :
    ∀ fuel s i, t.length - s ≤ fuel → s < t.length →
    (∀ w ∈ windowLoop t chunk_size overlap fuel s,
      ¬ (pyStrip (sliceChars t w.1 w.2)).isEmpty) →
    (∃ c l', chunkLoop t chunk_size overlap fuel s i = c :: l' ∧ c.start = s) ∧
    List.Chain' (fun a b => b.start < a.endPos)
      (chunkLoop t chunk_size overlap fuel s i) ∧
    ∀ p, s ≤ p → p < t.length →
      ∃ c ∈ chunkLoop t chunk_size overlap fuel s i,
        c.start ≤ p ∧ p < c.endPos := by
  intro fuel
  induction fuel with
  | zero => intro s i h1 h2 _; omega
  | succ fuel ih =>
    intro s i hfuel hs hnd
    have hcs2 : 2 ≤ chunk_size := by omega
    have hwhead : (s, chunkEnd t chunk_size s) ∈
        windowLoop t chunk_size overlap (fuel + 1) s := by
      simp [windowLoop, hs]
    have hne := hnd _ hwhead
    have hloop : chunkLoop t chunk_size overlap (fuel + 1) s i =
        ⟨i, pyStrip (sliceChars t s (chunkEnd t chunk_size s)), s,
          chunkEnd t chunk_size s⟩ ::
          chunkLoop t chunk_size overlap fuel
            (chunkNext t chunk_size overlap s) (i + 1) := by
      simp only [chunkLoop, if_pos hs]
      simp [hne]
    have hend := chunkEnd_bounds t chunk_size s (by omega) hs
    have hnext_le := chunkNext_le_end t chunk_size overlap s (by omega) hs
    by_cases hnl : chunkNext t chunk_size overlap s < t.length
    · have hsn : s + 1 ≤ chunkNext t chunk_size overlap s := le_max_left _ _
      have hfuel' : t.length - chunkNext t chunk_size overlap s ≤ fuel := by
        omega
      have hndrest : ∀ w ∈ windowLoop t chunk_size overlap fuel
          (chunkNext t chunk_size overlap s),
          ¬ (pyStrip (sliceChars t w.1 w.2)).isEmpty := by
        intro w hw
        refine hnd w ?_
        have : windowLoop t chunk_size overlap (fuel + 1) s =
            (s, chunkEnd t chunk_size s) ::
              windowLoop t chunk_size overlap fuel
                (chunkNext t chunk_size overlap s) := by
          simp [windowLoop, hs]
        rw [this]
        exact List.mem_cons_of_mem _ hw
      obtain ⟨⟨c, l', hceq, hcstart⟩, hchain, hcover⟩ :=
        ih (chunkNext t chunk_size overlap s) (i + 1) hfuel' hnl hndrest
      have hnext_lt := chunkNext_lt_end t chunk_size overlap s hov hcs2 hs hnl
      refine ⟨⟨_, _, hloop, rfl⟩, ?_, ?_⟩
      · rw [hloop, hceq, List.chain'_cons]
        refine ⟨?_, hceq ▸ hchain⟩
        show c.start < chunkEnd t chunk_size s
        rw [hcstart]
        exact hnext_lt
      · intro p hp1 hp2
        by_cases hpe : p < chunkEnd t chunk_size s
        · exact ⟨_, by rw [hloop]; exact List.mem_cons_self _ _, hp1, hpe⟩
        · have hp3 : chunkNext t chunk_size overlap s ≤ p := by omega
          obtain ⟨c', hc'mem, hc'1, hc'2⟩ := hcover p hp3 hp2
          exact ⟨c', by rw [hloop]; exact List.mem_cons_of_mem _ hc'mem,
            hc'1, hc'2⟩
    · have hEnd := chunkEnd_eq_len_of_stop t chunk_size overlap s
        (by omega) hov hs hnl
      have hnil := chunkLoop_stop t chunk_size overlap fuel
        (chunkNext t chunk_size overlap s) (i + 1) hnl
      rw [hnil] at hloop
      refine ⟨⟨_, _, hloop, rfl⟩, ?_, ?_⟩
      · rw [hloop]
        exact List.chain'_singleton _
      · intro p hp1 hp2
        refine ⟨_, by rw [hloop]; exact List.mem_cons_self _ _, hp1, ?_⟩
        show p < chunkEnd t chunk_size s
        omega

/-- C5 (amended).  For a text whose trimmed form is longer than
`chunk_size`, with `1 ≤ overlap < chunk_size` and provided no scanned
window strips to whitespace-only text (so no window is discarded), the
returned chunks fully cover the trimmed text and every pair of
consecutive chunks satisfies `chunk[i+1].start < chunk[i].end`.
(The counterexample `to_chunks_gap_counterexample` shows both
conclusions fail without the no-discard proviso, and a zero overlap
makes consecutive chunks merely touch, so both added hypotheses are
necessary.) -/
theorem to_chunks_cover (text : List Char) (chunk_size overlap : ℕ)
    (hov : 1 ≤ overlap) (hcs : overlap < chunk_size)
    (hlen : chunk_size < (pyStrip text).length)
    (hnd : ∀ w ∈ to_windows text chunk_size overlap,
      ¬ (pyStrip (sliceChars (pyStrip text) w.1 w.2)).isEmpty) :
    List.Chain' (fun a b => b.start < a.endPos)
      (to_chunks text chunk_size overlap) ∧
    ∀ p < (pyStrip text).length,
      ∃ c ∈ to_chunks text chunk_size overlap,
        c.start ≤ p ∧ p < c.endPos := by
  have h0 : 0 < (pyStrip text).length := by omega
  have hne : ¬ (pyStrip text).isEmpty := by
    rw [List.isEmpty_iff]
    intro h
    rw [h] at h0
    exact absurd h0 (by simp)
  have hto : to_chunks text chunk_size overlap =
      chunkLoop (pyStrip text) chunk_size overlap (pyStrip text).length 0 0 := by
    unfold to_chunks
    simp [hne, not_le.mpr hlen]
  obtain ⟨_, hchain, hcover⟩ :=
    chunkLoop_cover (pyStrip text) chunk_size overlap hov hcs
      (pyStrip text).length 0 0 (by omega) h0 hnd
  rw [hto]
  exact ⟨hchain, fun p hp => hcover p (Nat.zero_le _) hp⟩

/-- The concrete text for the `to_chunks_cover` witness: every scanned
window contains letters, so nothing is discarded. -/
def exCoverText : List Char := "abcdef ghijkl mnopqr".toList

/-- Witness for `to_chunks_cover` on `exCoverText` with
`chunk_size = 4`, `overlap = 1`. -/
theorem to_chunks_cover_witness :
    (1 ≤ 1 ∧ 1 < 4 ∧ 4 < (pyStrip exCoverText).length ∧
      ∀ w ∈ to_windows exCoverText 4 1,
        ¬ (pyStrip (sliceChars (pyStrip exCoverText) w.1 w.2)).isEmpty) ∧
    (List.Chain' (fun a b => b.start < a.endPos) (to_chunks exCoverText 4 1) ∧
      ∀ p < (pyStrip exCoverText).length,
        ∃ c ∈ to_chunks exCoverText 4 1, c.start ≤ p ∧ p < c.endPos) :=
  ⟨⟨le_rfl, by norm_num, by decide, by decide⟩,
   to_chunks_cover exCoverText 4 1 le_rfl (by norm_num) (by decide) (by decide)⟩

/-- Inserting a result whose score is `s` into a list places it after
every strictly-higher-scored element and before everything else, so the
score-`s` elements gain it at the front of their subsequence. -/
theorem filter_orderedInsert_score_eq (s : ℚ) (a : SearchResultPy)
    (l : List SearchResultPy) (ha : a.score = s) :
    (List.orderedInsert scoreGE a l).filter (fun r => decide (r.score = s)) =
      a :: l.filter (fun r => decide (r.score = s)) := by
  induction l with
  | nil => simp [List.orderedInsert, ha]
  | cons b l ih =>
    by_cases hr : scoreGE a b
    · simp [List.orderedInsert, hr, ha]
    · have hb : ¬ (b.score = s) := by
        unfold scoreGE at hr
        intro hbs
        exact hr (le_of_eq (hbs.trans ha.symm))
      simp [List.orderedInsert, hr, hb, ih]

/-- Inserting a result whose score is not `s` leaves the score-`s`
subsequence unchanged. -/
theorem filter_orderedInsert_score_ne (s : ℚ) (a : SearchResultPy)
    (l : List SearchResultPy) (ha : ¬ (a.score = s)) :
    (List.orderedInsert scoreGE a l).filter (fun r => decide (r.score = s)) =
      l.filter (fun r => decide (r.score = s)) := by
  induction l with
  | nil => simp [List.orderedInsert, ha]
  | cons b l ih =>
    by_cases hr : scoreGE a b
    · simp [List.orderedInsert, hr, ha]
    · simp only [List.orderedInsert, if_neg hr, List.filter_cons, ih]

/-- Stability of the score-descending sort: for each score value, the
sorted list carries exactly the input's elements of that score in their
input order. -/
theorem filter_insertionSort_score (s : ℚ) (l : List SearchResultPy) :
    (l.insertionSort scoreGE).filter (fun r => decide (r.score = s)) =
      l.filter (fun r => decide (r.score = s)) := by
  induction l with
  | nil => rfl
  | cons a l ih =>
    simp only [List.insertionSort]
    by_cases ha : a.score = s
    · rw [filter_orderedInsert_score_eq s a _ ha, ih]
      simp [ha]
    · rw [filter_orderedInsert_score_ne s a _ ha, ih]
      simp [ha]

/-- C8.  `rank_results` is the candidate list (hits whose provenance,
text or episode fails to resolve are dropped before anything else, so
they never count toward `k`) sorted by fused score descending with the
stable tie-break, truncated to `top_k`: the output is sorted; its
length is `min top_k (number of resolvable candidates)`; for every
score value the output's elements of that score are a prefix of the
candidates of that score in input order (stability); `top_k = 0` gives
the empty result; and a `top_k` at least the number of candidates
returns exactly all of them (a permutation, never padded). -/
theorem rank_results_ordering (partial_ratio : List Char → List Char → ℚ)
    (alpha : ℚ) (db : DB) (query : List Char)
    (semantic_results : List (ℕ × ℚ)) (top_k : ℕ) :
    List.Sorted scoreGE (rank_results partial_ratio alpha db query semantic_results top_k) ∧
    (rank_results partial_ratio alpha db query semantic_results top_k).length =
      min top_k (rankedCandidates partial_ratio alpha db query semantic_results).length ∧
    (∀ s : ℚ,
      (rank_results partial_ratio alpha db query semantic_results top_k).filter
          (fun r => decide (r.score = s)) <+:
        (rankedCandidates partial_ratio alpha db query semantic_results).filter
          (fun r => decide (r.score = s))) ∧
    (top_k = 0 → rank_results partial_ratio alpha db query semantic_results top_k = []) ∧
    ((rankedCandidates partial_ratio alpha db query semantic_results).length ≤ top_k →
      List.Perm (rank_results partial_ratio alpha db query semantic_results top_k)
        (rankedCandidates partial_ratio alpha db query semantic_results)) := by
  have hcands : semantic_results.isEmpty = true →
      rankedCandidates partial_ratio alpha db query semantic_results = [] := by
    intro h
    rw [List.isEmpty_iff] at h
    subst h
    rfl
  have hr : rank_results partial_ratio alpha db query semantic_results top_k =
      ((rankedCandidates partial_ratio alpha db query semantic_results).insertionSort
        scoreGE).take top_k := by
    unfold rank_results
    by_cases hh : semantic_results.isEmpty
    · simp [hh, hcands hh]
    · simp [hh]
  refine ⟨?_, ?_, ?_, ?_, ?_⟩
  · rw [hr]
    exact List.Pairwise.sublist (List.take_sublist _ _)
      (List.sorted_insertionSort scoreGE _)
  · rw [hr, List.length_take,
      (List.perm_insertionSort scoreGE _).length_eq]
  · intro s
    rw [hr]
    refine ⟨(((rankedCandidates partial_ratio alpha db query
        semantic_results).insertionSort scoreGE).drop top_k).filter
          (fun r => decide (r.score = s)), ?_⟩
    rw [← List.filter_append, List.take_append_drop]
    exact filter_insertionSort_score s _
  · intro h
    rw [hr, h, List.take_zero]
  · intro h
    rw [hr]
    have hlen : ((rankedCandidates partial_ratio alpha db query
        semantic_results).insertionSort scoreGE).length ≤ top_k := by
      rw [(List.perm_insertionSort scoreGE _).length_eq]
      exact h
    rw [List.take_of_length_le hlen]
    exact List.perm_insertionSort scoreGE _

/-- The external fuzzy scorer used in concrete witnesses. -/
def prW : List Char → List Char → ℚ := fun _ _ => 50

/-- Concrete semantic hits used in the `rank_results` witness. -/
def hitsW : List (ℕ × ℚ) := [(0, 1/2), (1, 1/3)]

/-- Witness for `rank_results_ordering`: at `top_k = 5 ≥` the number of
resolvable candidates over `exDb`, the result is a permutation of all
candidates. -/
theorem rank_results_ordering_witness :
    (rankedCandidates prW (7/10) exDb "y".toList hitsW).length ≤ 5 ∧
    List.Perm (rank_results prW (7/10) exDb "y".toList hitsW 5)
      (rankedCandidates prW (7/10) exDb "y".toList hitsW) :=
  ⟨by decide,
   (rank_results_ordering prW (7/10) exDb "y".toList hitsW 5).2.2.2.2 (by decide)⟩

/-- C9.  `hybrid_score(semantic, lexical, alpha)` is exactly
`alpha·semantic + (1−alpha)·lexical` (for every `alpha`, in particular
on `[0,1]`), and `fuse(0.8, 0.2, alpha=0.7)` is `0.62` within `1e-6`. -/
theorem hybrid_score_fuse :
    (∀ semantic lexical alpha : ℚ,
      hybrid_score semantic lexical alpha =
        alpha * semantic + (1 - alpha) * lexical) ∧
    |hybrid_score (8/10) (2/10) (7/10) - 62/100| < 1/1000000 := by
  refine ⟨fun _ _ _ => rfl, ?_⟩
  norm_num [hybrid_score]

/-- C10.  When a resolved candidate's offsets fall outside the
episode's stored text (`start ≥ len` or `end > len`), `_get_chunk_text`
returns the episode's entire transcript-or-description, and ranking
does not drop the candidate: its lexical score and snippet are computed
over that full text. -/
theorem chunk_text_out_of_bounds_returns_full (db : DB)
    (episode_id s e : ℕ) (episode : EpisodeRow)
    (partial_ratio : List Char → List Char → ℚ) (alpha : ℚ)
    (query : List Char) (chunk_idx : ℕ) (semantic : ℚ)
    (hep : get_episode db episode_id = some episode)
    (hoob : (episodeFullText episode).length ≤ s ∨
      (episodeFullText episode).length < e)
    (hmeta : _get_chunk_metadata db chunk_idx = some (episode_id, s, e))
    (hne : episodeFullText episode ≠ []) :
    _get_chunk_text db episode_id s e = episodeFullText episode ∧
    rankedCandidates partial_ratio alpha db query [(chunk_idx, semantic)] =
      [⟨episode_id, episode.title, episode.pub_date, episode.link,
        hybrid_score semantic
          (lexical_score partial_ratio query (episodeFullText episode)) alpha,
        generate_snippet (episodeFullText episode) query 200, semantic,
        lexical_score partial_ratio query (episodeFullText episode)⟩] := by
  have htext : _get_chunk_text db episode_id s e = episodeFullText episode := by
    unfold _get_chunk_text
    rw [hep]
    have : ((episodeFullText episode).length ≤ s ∨
        (episodeFullText episode).length < e) := hoob
    simp only []
    rcases hoob with h | h <;> simp [h]
  refine ⟨htext, ?_⟩
  unfold rankedCandidates
  simp [hmeta, htext, hne, hep, List.isEmpty_iff]

/-- Witness for `chunk_text_out_of_bounds_returns_full`: in `exDb`,
position 1 resolves to `(2, 2, 3)` but episode 2's text is the single
character `y`, so the whole text comes back and the candidate is
ranked over it. -/
theorem chunk_text_out_of_bounds_returns_full_witness :
    _get_chunk_text exDb 2 2 3 = "y".toList ∧
    rankedCandidates (fun _ _ => 50) (7/10) exDb "y".toList [(1, 1/2)] =
      [⟨2, "ep two".toList, none, "l2".toList,
        hybrid_score (1/2) (lexical_score (fun _ _ => 50) "y".toList "y".toList) (7/10),
        generate_snippet "y".toList "y".toList 200, 1/2,
        lexical_score (fun _ _ => 50) "y".toList "y".toList⟩] :=
  chunk_text_out_of_bounds_returns_full exDb 2 2 3
    ⟨2, "g2".toList, "ep two".toList, "l2".toList, none, "dy".toList, "y".toList⟩
    (fun _ _ => 50) (7/10) "y".toList 1 (1/2)
    (by decide) (by decide) (by decide) (by decide)
